import Mathlib

/-!
# Verification of the same-domain mirroring crawler (main.go)

This file gives a shallow embedding of the crawler's pure logic and of the
sequential behaviour of its stateful parts, and proves or refutes the
behavioural claims made by the design document.

Modelling conventions:
* Go strings are modelled as `String` / `List Char` (the crawler only ever
  handles textual data; `[]byte` page content is modelled as `String`).
* `net/url.Parse` is modelled by `parseURLChars` below, restricted to the
  features the crawler exercises: control-character rejection, fragment and
  query splitting, scheme detection, opaque URLs, authority/host splitting
  with userinfo stripped at the last `@`, the colon-in-first-path-segment
  error, and percent-escape handling for the path (escapes are validated
  and decoded into `URL.Path`, a decoded byte modelled as the character
  with that code point) and for the fragment (validated).  Not modelled:
  host percent-escapes (Go decodes only `%25` and non-ASCII escapes there;
  the idempotence theorem below excludes hosts containing `%`), userinfo
  validation, port validation, IPv6 bracket/zone handling and scheme
  lower-casing — each omission only makes the model accept strings the
  real parser rejects, never the reverse, so every `none` of the model is
  a real Go parse error.
* The file system, the network and the HTML parser are external
  collaborators; they appear as oracle functions in `Env`.
-/

namespace Crawler

/-- A byte is a control byte when it is below 0x20 or equal to 0x7f
(Go net/url `stringContainsCTLByte`). -/
def isCTL (c : Char) : Bool := c.toNat < 0x20 || c.toNat == 0x7f

/-- ASCII letter, as in Go net/url getScheme. -/
def isAlphaChar (c : Char) : Bool :=
  (('a' ≤ c) && (c ≤ 'z')) || (('A' ≤ c) && (c ≤ 'Z'))

/-- ASCII digit. -/
def isDigitChar (c : Char) : Bool := ('0' ≤ c) && (c ≤ '9')

/-- Characters allowed after the first position of a URL scheme
(Go net/url getScheme): letters, digits, `+`, `-`, `.`. -/
def isSchemeChar (c : Char) : Bool :=
  isAlphaChar c || isDigitChar c || c == '+' || c == '-' || c == '.'

/-- Split a character list at the first occurrence of `ch`.  Returns
`(before, some after)` when `ch` occurs and `(l, none)` otherwise; models
`strings.Cut`. -/
def cutFirst (ch : Char) : List Char → List Char × Option (List Char)
  | [] => ([], none)
  | c :: cs =>
    if c == ch then ([], some cs)
    else
      let r := cutFirst ch cs
      (c :: r.1, r.2)

/-- Scanner for the tail of a URL scheme (positions ≥ 1 of Go getScheme's
loop): succeeds with `(schemeTail, rest)` when a `:` is reached through
valid scheme characters only. -/
def schemeScan : List Char → Option (List Char × List Char)
  | [] => none
  | c :: cs =>
    if c == ':' then some ([], cs)
    else if isSchemeChar c then
      match schemeScan cs with
      | some (a, r) => some (c :: a, r)
      | none => none
    else none

/-- Result of Go net/url getScheme: a hard error (`:` at position 0),
no scheme found (the whole string is the rest), or a scheme split. -/
inductive SchemeRes where
  | schemeErr : SchemeRes
  | noScheme : SchemeRes
  | found : List Char → List Char → SchemeRes
deriving DecidableEq

/-- Model of Go net/url getScheme.  A string beginning with `:` is a
"missing protocol scheme" error; a scheme must begin with a letter and
consist of scheme characters up to a `:`; anything else means the string
has no scheme. -/
def getScheme (l : List Char) : SchemeRes :=
  match l with
  | [] => .noScheme
  | c :: cs =>
    if c == ':' then .schemeErr
    else if isAlphaChar c then
      match schemeScan cs with
      | some (a, r) => .found (c :: a) r
      | none => .noScheme
    else .noScheme

/-- The `(scheme, host, path)` triple of a parsed URL, the part of Go's
`url.URL` the crawler reads (`Scheme`, `Host`, `Path`). -/
structure GoURL where
  scheme : List Char
  host : List Char
  path : List Char
deriving DecidableEq

/-- ASCII hex digit (Go net/url `ishex`). -/
def isHexDigit (c : Char) : Bool :=
  isDigitChar c || (('a' ≤ c) && (c ≤ 'f')) || (('A' ≤ c) && (c ≤ 'F'))

/-- Value of a hex digit (Go net/url `unhex`). -/
def hexVal (c : Char) : Nat :=
  if isDigitChar c then c.toNat - '0'.toNat
  else if ('a' ≤ c) && (c ≤ 'f') then c.toNat - 'a'.toNat + 10
  else c.toNat - 'A'.toNat + 10

/-- Go net/url `unescape` in the path/fragment modes: every `%` must be
followed by two hex digits and is decoded to the byte they denote
(modelled as the character with that code point); every other character
passes through unchanged.  `none` models `EscapeError`. -/
def percentUnescape : List Char → Option (List Char)
  | [] => some []
  | c :: rest =>
    if c = '%' then
      match rest with
      | hi :: lo :: rest2 =>
        if isHexDigit hi && isHexDigit lo then
          (percentUnescape rest2).map fun d => Char.ofNat (16 * hexVal hi + hexVal lo) :: d
        else none
      | _ => none
    else (percentUnescape rest).map fun d => c :: d

/-- The userinfo strip of Go `parseAuthority`: the host is the part of the
authority after the last `@` (the userinfo before it is dropped; its
validation is not modelled). -/
def afterLastAt (l : List Char) : List Char :=
  (l.reverse.takeWhile (· != '@')).reverse

/-- Whether a character list begins with `/`. -/
def headIsSlash (l : List Char) : Bool :=
  match l with
  | c :: _ => c == '/'
  | [] => false

/-- Whether a character list begins with `#`. -/
def headIsHash (l : List Char) : Bool :=
  match l with
  | c :: _ => c == '#'
  | [] => false

/-- The authority/path split performed by Go net/url parse once the rest
begins with `/`: a leading `//` (unless the whole rest is `///…` with no
scheme) introduces an authority read up to the next `/`, of which the part
after the last `@` is the host; everything else is path, which `setPath`
percent-decodes (failing on an invalid escape). -/
def parsePathOrAuthority (scheme rest : List Char) : Option GoURL :=
  match rest with
  | '/' :: '/' :: tail =>
    if scheme ≠ [] || !headIsSlash tail then
      (percentUnescape (tail.dropWhile (· != '/'))).map fun pa =>
        ⟨scheme, afterLastAt (tail.takeWhile (· != '/')), pa⟩
    else (percentUnescape rest).map fun pa => ⟨scheme, [], pa⟩
  | _ => (percentUnescape rest).map fun pa => ⟨scheme, [], pa⟩

/-- Escape validation of the fragment part, when one was cut off
(Go `setFragment`). -/
def fragmentOK : Option (List Char) → Bool
  | none => true
  | some frag => (percentUnescape frag).isSome

/-- Model of Go `net/url.Parse` (see the module comment for the modelled
subset).  `none` models a parse error, in which case Go returns a nil
`*url.URL`.  The fragment is cut at the first `#` and its escapes are
validated (`setFragment`), control characters in the pre-fragment part
are rejected, the scheme is split off, the query is cut at the first `?`;
a scheme-less string whose first path segment contains `:` is an error;
an absolute URL whose rest does not begin with `/` is opaque (empty
`Host` and `Path`, no unescaping); otherwise the authority/path split of
`parsePathOrAuthority` applies, percent-decoding the path. -/
def parseURLChars (s : List Char) : Option GoURL :=
  let beforeFrag := (cutFirst '#' s).1
  if !fragmentOK (cutFirst '#' s).2 then none
  else if beforeFrag.any isCTL then none
  else
    match getScheme beforeFrag with
    | .schemeErr => none
    | .found sch rest0 =>
      let rest := (cutFirst '?' rest0).1
      if headIsSlash rest then parsePathOrAuthority sch rest
      else some ⟨sch, [], []⟩
    | .noScheme =>
      let rest := (cutFirst '?' beforeFrag).1
      if headIsSlash rest then parsePathOrAuthority [] rest
      else if (rest.takeWhile (· != '/')).contains ':' then none
      else parsePathOrAuthority [] rest

/-- The string `fmt.Sprintf("%v://%v%v", u.Scheme, u.Host, u.Path)` built by
`process` (main.go line 75). -/
def GoURL.rebuild (p : GoURL) : List Char :=
  p.scheme ++ ':' :: '/' :: '/' :: (p.host ++ p.path)

/-- Go `strings.TrimSuffix(s, "/")`: remove one trailing `/` if present. -/
def trimSlashSuffix (l : List Char) : List Char :=
  if l.getLast? == some '/' then l.dropLast else l

/-- The URL normalization performed at the top of `process`
(main.go lines 66-75): trim one trailing slash, parse, and rebuild as
`scheme://host/path` (dropping query and fragment).  `none` models the
parse-error path, on which the real code crashes. -/
def normalizeChars (l : List Char) : Option (List Char) :=
  (parseURLChars (trimSlashSuffix l)).map GoURL.rebuild

/-- `normalizeChars` on `String`. -/
def normalize (s : String) : Option String :=
  (normalizeChars s.data).map fun l => String.mk l

/-! ## Scope filter: checkIfChildren (main.go lines 284-288)

The Go code compiles the regular expression `^T(?:\/.*|)$` with
`T = regexp.QuoteMeta(target)` and matches the input against it.  Under
RE2 semantics (no `m`, no `s` flag) `^` and `$` anchor at the beginning
and end of the text and `.` matches any character except newline, so the
regex accepts exactly: the target itself, or the target followed by `/`
and a newline-free remainder. -/

/-- Whether a character list is free of newlines (what `.*` can match in
an RE2 regex without the `s` flag, between anchors). -/
def newlineFree (l : List Char) : Bool := l.all (· != '\n')

/-- Matcher for the `\/.*` alternative of the regex: `slashTailMatch i t`
holds when `i = t ++ "/" ++ r` with `r` newline-free. -/
def slashTailMatch : List Char → List Char → Bool
  | [], [] => false
  | c :: is, [] => c == '/' && newlineFree is
  | [], _ :: _ => false
  | c :: is, d :: ts => c == d && slashTailMatch is ts

/-- Model of `checkIfChildren` on character lists: the anchored regex
accepts the target itself (empty alternative) or target-slash-remainder
with no newline in the remainder. -/
def checkIfChildrenChars (input target : List Char) : Bool :=
  input == target || slashTailMatch input target

/-- Model of `checkIfChildren(input, target)` (main.go lines 284-288). -/
def checkIfChildren (input target : String) : Bool :=
  checkIfChildrenChars input.data target.data

/-! ## Link extractor: extractUrls (main.go lines 204-282)

The HTML tree produced by golang.org/x/net/html is modelled by `HtmlNode`
(element flag, tag name, attributes, children); `extractUrls` performs the
same pre-order walk as the Go closure `f`.

Two loops of the Go source have no effect and are modelled accordingly:
* the `invalidValues` loop (lines 227-231) — its `continue` targets the
  `invalidValues` loop itself, so it never skips the href;
* the duplicate-check loop (lines 260-264) — its `continue` targets the
  duplicate-check loop itself (and it compares the unprefixed `newUrl`
  against already-prefixed entries), so it never skips the append.

A `url.Parse` error inside the Go attribute loop executes `break`, which
leaves the attribute loop and moves on to the children. -/

/-- A node of the parsed HTML tree: `mk isElement tagName attributes
children`. -/
inductive HtmlNode where
  | mk : Bool → String → List (String × String) → List HtmlNode → HtmlNode

/-- `startsWithChars p l` is Go `strings.HasPrefix(l, p)`. -/
def startsWithChars : List Char → List Char → Bool
  | [], _ => true
  | _ :: _, [] => false
  | p :: ps, c :: cs => p == c && startsWithChars ps cs

/-- Outcome of one step of the href rewriting: leave the attribute loop
(`brk`, on a parse error), skip this href (`cont`, cross-domain), or
continue with a rewritten value. -/
inductive HrefStep where
  | brk : HrefStep
  | cont : HrefStep
  | val : List Char → HrefStep

/-- The same-domain branch of the href loop (main.go lines 233-245):
an href beginning with `http` is parsed; a parse error breaks the
attribute loop; a foreign host skips the href; otherwise the href is
replaced by its parsed path. -/
def hrefHttpStep (domain : List Char) (v : List Char) : HrefStep :=
  if startsWithChars "http".data v then
    match parseURLChars v with
    | none => .brk
    | some q => if domain ≠ q.host then .cont else .val q.path
  else .val v

/-- The relative-path branch of the href loop (main.go lines 247-255):
an href beginning with `/` gets the domain prepended and is replaced by
the parsed path of the result; a parse error breaks the attribute loop. -/
def hrefSlashStep (domain : List Char) (v : List Char) : HrefStep :=
  if headIsSlash v then
    match parseURLChars (domain ++ v) with
    | none => .brk
    | some q => .val q.path
  else .val v

/-- Processing of one href value (main.go lines 220-271).  Returns `none`
when the Go code would `break` out of the attribute loop, otherwise the
updated url list. -/
def hrefOutcome (base : GoURL) (targetURL : List Char) (urls : List String)
    (v0 : List Char) : Option (List String) :=
  if headIsHash v0 then some urls
  else
    match hrefHttpStep base.host v0 with
    | .brk => none
    | .cont => some urls
    | .val v1 =>
      match hrefSlashStep base.host v1 with
      | .brk => none
      | .cont => some urls
      | .val v2 =>
        if checkIfChildrenChars v2 targetURL then
          let v3 := trimSlashSuffix v2
          if v3 == targetURL then some urls
          else some (urls ++ [String.mk (base.scheme ++ ':' :: '/' :: '/' :: v3)])
        else some urls

/-- The attribute loop of `extractUrls` over one anchor element. -/
def attrsLoop (base : GoURL) (targetURL : List Char) :
    List (String × String) → List String → List String
  | [], urls => urls
  | (k, v) :: rest, urls =>
    if k == "href" then
      match hrefOutcome base targetURL urls v.data with
      | none => urls
      | some urls2 => attrsLoop base targetURL rest urls2
    else attrsLoop base targetURL rest urls

mutual

/-- The recursive tree walk `f` of `extractUrls`: anchors contribute their
hrefs, then the children are visited in order. -/
def extractWalk (base : GoURL) (targetURL : List Char) :
    HtmlNode → List String → List String
  | .mk isElem tag attrs children, urls =>
    let urls1 := if isElem && tag == "a" then attrsLoop base targetURL attrs urls else urls
    extractWalkList base targetURL children urls1

/-- `extractWalk` over a list of sibling nodes. -/
def extractWalkList (base : GoURL) (targetURL : List Char) :
    List HtmlNode → List String → List String
  | [], urls => urls
  | n :: ns, urls => extractWalkList base targetURL ns (extractWalk base targetURL n urls)

end

/-- Model of `extractUrls(doc, parsedURL)` (main.go lines 204-282).  The Go
function's error result is always nil, so only the url list is returned. -/
def extractUrls (doc : HtmlNode) (p : GoURL) : List String :=
  extractWalk p (p.host ++ p.path) doc []

/-- The crawl scope used by the design document's examples: scheme
`https`, host `github.com`, path `/features`. -/
def ghBase : GoURL := ⟨"https".data, "github.com".data, "/features".data⟩

/-- An anchor element with a single href attribute. -/
def anchor (href : String) : HtmlNode := .mk true "a" [("href", href)] []

/-- A page carrying the same in-scope href in two anchors. -/
def dupDoc : HtmlNode := .mk true "body" [] [anchor "/features/a", anchor "/features/a"]

/-- The five-anchor document of the design document's link-extraction
example. -/
def fiveAnchorDoc : HtmlNode :=
  .mk true "html" [] [.mk true "body" [] [
    anchor "#top",
    anchor "/",
    anchor "/features/a",
    anchor "https://other.com/x",
    anchor "https://github.com/features/b"]]

/-! ## Fetcher: download (main.go lines 142-162) -/

/-- Result of reading a response body (`io.ReadAll`). -/
inductive ReadResult where
  | readErr : ReadResult
  | bytes : String → ReadResult
deriving DecidableEq

/-- Result of `http.Get`: a transport error, or a response with a status
code and a body. -/
inductive GetResult where
  | connError : GetResult
  | resp : Nat → ReadResult → GetResult
deriving DecidableEq

/-- Model of `download(url)` (main.go lines 142-162): a transport error is
returned as-is; a status different from `http.StatusOK` (200) yields the
error "invalid status code" before the body is read; otherwise the body is
read and returned. -/
def download (g : GetResult) : Except String String :=
  match g with
  | .connError => .error "Get error"
  | .resp status body =>
    if status = 200 then
      match body with
      | .readErr => .error "read error"
      | .bytes d => .ok d
    else .error "invalid status code"

/-! ## Page store locations (main.go lines 91-100, 164-193)

`process` derives the on-disk location `filepath.Join(dir, path) + "/" +
fileName + ".html"` with `fileName = path.Base(path)` (or "index" when the
base is ".").  `filepath.Join` is modelled as concatenation, without Go's
`Clean` normalization (faithful for rooted paths free of `.`/`..`
segments); the store is an oracle keyed by the derived location. -/

/-- Model of Go `path.Base`: empty input gives `"."`; trailing slashes are
stripped; an all-slash input gives `"/"`; otherwise the part after the
last `/`. -/
def goPathBase (l : List Char) : List Char :=
  if l == [] then ['.']
  else
    let s := (l.reverse.dropWhile (· == '/')).reverse
    if s == [] then ['/']
    else (s.reverse.takeWhile (· != '/')).reverse

/-- The file location `process` reads and writes for a parsed URL
(main.go lines 91-100). -/
def derivedLoc (dir : List Char) (p : GoURL) : List Char :=
  let fp := dir ++ p.path
  let base := goPathBase p.path
  let fileName := if base == ['.'] then "index".data else base
  fp ++ '/' :: (fileName ++ ".html".data)

/-! ## Crawl orchestrator: process (main.go lines 66-140)

One sequential call of `process` is modelled as a function from a visited
list and an input string to the new visited list, the observable effects
(store reads, network fetches, store writes, spawned recursive calls — the
spawned goroutines are recorded, not executed), and an outcome.  The
outcome `panicked` models the nil-pointer dereference that the real code
performs on the parse-error path: `url.Parse` returns a nil pointer
together with the error, the error is only printed, and line 75 then reads
`parsedURL.Scheme` from the nil pointer.

`html.Parse` reads from a `strings.Reader`, which never fails, and the
parser itself is error-tolerant, so its error branch (and the always-nil
error of `extractUrls`) is dead code; the HTML parser is modelled as a
total oracle in `Env`. -/

/-- The external collaborators of one `process` call: the mirror directory,
the page store (`os.ReadFile`), the network (`http.Get`) and the HTML
parser. -/
structure Env where
  dir : List Char
  store : List Char → Option String
  net : String → GetResult
  parseHTML : String → HtmlNode

/-- The observable effects of one `process` call. -/
structure Effects where
  loaded : List (List Char)
  fetched : List String
  savedFiles : List (List Char × String)
  spawned : List String
deriving DecidableEq

/-- How a `process` call ends: a Go panic (nil-pointer dereference), or a
normal return carrying the Go error result. -/
inductive Outcome where
  | panicked : Outcome
  | returned : Option String → Outcome
deriving DecidableEq

/-- Result of one `process` call. -/
structure ProcResult where
  urls : List String
  eff : Effects
  out : Outcome
deriving DecidableEq

/-- No effects. -/
def emptyEffects : Effects := ⟨[], [], [], []⟩

/-- Model of one sequential call of `process(target)` (main.go lines
66-140): trim one trailing slash; parse (a parse error prints and then
panics on the nil pointer); rebuild the normalized target; if it is
already in the visited list, return nil immediately; otherwise append it,
try the page store at the derived location, on a miss download (a download
error prints and leaves the content empty) and save, then parse the
content and record one spawned recursive call per extracted URL.  All
swallowed errors leave the error result nil. -/
def process (env : Env) (urls0 : List String) (input : String) : ProcResult :=
  match parseURLChars (trimSlashSuffix input.data) with
  | none => ⟨urls0, emptyEffects, .panicked⟩
  | some p =>
    let target := String.mk p.rebuild
    if target ∈ urls0 then ⟨urls0, emptyEffects, .returned none⟩
    else
      let urls1 := urls0 ++ [target]
      let loc := derivedLoc env.dir p
      match env.store loc with
      | some cached =>
        ⟨urls1, ⟨[loc], [], [], extractUrls (env.parseHTML cached) p⟩, .returned none⟩
      | none =>
        let content :=
          match download (env.net target) with
          | .ok b => b
          | .error _ => ""
        ⟨urls1, ⟨[loc], [target], [(loc, content)], extractUrls (env.parseHTML content) p⟩,
          .returned none⟩

/-- A childless, anchor-free node, for environments whose pages contain no
links. -/
def trivialNode : HtmlNode := .mk false "" [] []

/-- An environment with an empty store and an unreachable network. -/
def wEnv : Env := ⟨"./data".data, fun _ => none, fun _ => .connError, fun _ => trivialNode⟩

/-- An environment whose store answers every location with the page
"cached". -/
def cacheEnv : Env :=
  ⟨"./data".data, fun _ => some "cached", fun _ => .connError, fun _ => trivialNode⟩

/-! ## The visited-set claim under concurrency (main.go lines 77-88)

Two goroutines running `process` for the same normalized URL race on the
global `URLs` slice.  The membership loop (lines 79-83) runs without any
lock; only the append (lines 86-88) takes the mutex.  The interleaving
model below gives each goroutine two atomic actions — even granting the
code that the whole unlocked membership loop happens atomically — namely
`check` (read `ok`) and `mark` (the locked append, skipped when `ok`).  A
goroutine proceeds to fetch exactly when its claim attempt saw `ok =
false`. -/

/-- The shared slice and the per-goroutine locals of the claim race: for
each of the two goroutines, the result of its membership check and whether
it entered the `!ok` branch (and hence proceeds to fetch). -/
structure RaceState where
  urls : List String
  ok0 : Option Bool
  ok1 : Option Bool
  claimed0 : Option Bool
  claimed1 : Option Bool
deriving DecidableEq

/-- One atomic action of the claim race. -/
inductive RaceAct where
  | check0 : RaceAct
  | mark0 : RaceAct
  | check1 : RaceAct
  | mark1 : RaceAct

/-- Semantics of one action: `check` records whether the key is in the
shared slice (lines 79-83, lock-free); `mark` appends under the mutex and
enters the fetch branch when the recorded check was false (lines 85-88). -/
def raceStep (key : String) (s : RaceState) : RaceAct → RaceState
  | .check0 => { s with ok0 := some (key ∈ s.urls : Bool) }
  | .check1 => { s with ok1 := some (key ∈ s.urls : Bool) }
  | .mark0 =>
    match s.ok0 with
    | some false => { s with urls := s.urls ++ [key], claimed0 := some true }
    | some true => { s with claimed0 := some false }
    | none => s
  | .mark1 =>
    match s.ok1 with
    | some false => { s with urls := s.urls ++ [key], claimed1 := some true }
    | some true => { s with claimed1 := some false }
    | none => s

/-- Run a schedule of claim-race actions. -/
def raceRun (key : String) (s : RaceState) (acts : List RaceAct) : RaceState :=
  acts.foldl (raceStep key) s

/-- Initial race state: empty visited slice, nothing checked or claimed. -/
def raceInit : RaceState := ⟨[], none, none, none, none⟩

/-- The interleaving in which both goroutines run their membership check
before either runs its locked append. -/
def badSchedule : List RaceAct := [.check0, .check1, .mark0, .mark1]

/-! ## Reparsability invariants, used for the normalization claims -/

/-- Shape of a scheme accepted by `getScheme`: nonempty, leading letter,
scheme characters afterwards. -/
def schemeOK : List Char → Prop
  | [] => False
  | c :: cs => isAlphaChar c = true ∧ cs.all isSchemeChar = true

/-- Invariants sufficient for the rebuilt `scheme://host/path` string of a
URL triple to parse back to the same triple: a well-formed clean scheme, a
host free of separators, escapes, userinfo and control characters, a
(percent-decoded) path free of characters that re-parse specially, and a
path that is empty or rooted. -/
structure Reparsable (p : GoURL) : Prop where
  scheme_shape : schemeOK p.scheme
  scheme_clean : ∀ c ∈ p.scheme, c ≠ '#' ∧ isCTL c = false
  host_clean : ∀ c ∈ p.host,
    c ≠ '/' ∧ c ≠ '?' ∧ c ≠ '#' ∧ c ≠ '%' ∧ c ≠ '@' ∧ isCTL c = false
  path_clean : ∀ c ∈ p.path, c ≠ '?' ∧ c ≠ '#' ∧ c ≠ '%' ∧ isCTL c = false
  path_shape : p.path = [] ∨ headIsSlash p.path = true

/-! ## Claim C1 — the visited-set claim is not atomic -/

/-- C1: refuted.  The membership check (lines 79-83) runs outside the
mutex, so in the interleaving `badSchedule` — both goroutines check before
either appends — both claim attempts for the same key succeed: both enter
the fetch branch, and the key is appended twice.  The claimed
exactly-once/atomic behaviour does not hold. -/
theorem c1_claim_race_both_proceed :
    (raceRun "https://x.com/a" raceInit badSchedule).claimed0 = some true ∧
      (raceRun "https://x.com/a" raceInit badSchedule).claimed1 = some true ∧
      (raceRun "https://x.com/a" raceInit badSchedule).urls =
        ["https://x.com/a", "https://x.com/a"] := by
  refine ⟨?_, ?_, ?_⟩ <;> decide

/-! ## Claim C2 — a call for an already-visited URL is a no-op -/

/-- C2: confirmed.  When the normalized form of the input is already in
the visited list, `process` performs no load, no fetch, no save and no
extraction, spawns nothing, leaves the visited list unchanged, and
returns a nil error. -/
theorem c2_duplicate_call_is_noop (env : Env) (urls0 : List String) (input : String)
    (p : GoURL)
    (h1 : parseURLChars (trimSlashSuffix input.data) = some p)
    (h2 : String.mk p.rebuild ∈ urls0) :
    process env urls0 input = ⟨urls0, emptyEffects, .returned none⟩ := by
  unfold process
  rw [h1]
  simp [h2]

/-- Witness for C2 at a concrete input: the normalized form of
`https://github.com/features/` is already visited. -/
theorem c2_duplicate_call_is_noop_w :
    process wEnv ["https://github.com/features"] "https://github.com/features/" =
      ⟨["https://github.com/features"], emptyEffects, .returned none⟩ :=
  c2_duplicate_call_is_noop wEnv ["https://github.com/features"]
    "https://github.com/features/" ghBase (by decide) (by decide)

/-! ## Claim C3 — the per-page dedup layer does not work -/

/-- C3: refuted (code bug).  The duplicate-check loop's `continue` targets
the loop itself, so a second occurrence of the same href on one page is
appended again: on a page with two `/features/a` anchors the extractor
returns the URL twice. -/
theorem c3_duplicate_href_appended_twice :
    extractUrls dupDoc ghBase =
      ["https://github.com/features/a", "https://github.com/features/a"] := by decide

/-! ## Claim C5 — the five-anchor extraction example -/

/-- C5: confirmed.  On the document with anchors `#top`, `/`,
`/features/a`, `https://other.com/x`, `https://github.com/features/b`
and scope `https://github.com/features`, the extractor returns exactly
the two in-scope URLs; the fragment-only, root and cross-domain links are
excluded. -/
theorem c5_extraction_example :
    extractUrls fiveAnchorDoc ghBase =
      ["https://github.com/features/a", "https://github.com/features/b"] := by decide

/-! ## Claim C6 — download errors on every non-200 status, 2xx included -/

/-- C6: counterexample.  A 204 response is a success (2xx) status, yet
`download` returns the "invalid status code" error, because the code
compares against `http.StatusOK` (exactly 200), not against the 2xx
class. -/
theorem c6_counterexample :
    download (GetResult.resp 204 (ReadResult.bytes "page")) =
        Except.error "invalid status code" ∧
      200 ≤ 204 ∧ 204 < 300 := ⟨rfl, by decide, by decide⟩

/-- C6 amended: `download` succeeds exactly on a readable response with
status exactly 200, and then returns the raw body; transport errors,
body-read errors and every status other than 200 (2xx included) yield an
error. -/
theorem c6_success_iff_status_200 :
    (∀ b, download (GetResult.resp 200 (ReadResult.bytes b)) = Except.ok b) ∧
      ∀ g, (∃ b, download g = Except.ok b) ↔
        ∃ b, g = GetResult.resp 200 (ReadResult.bytes b) := by
  refine ⟨fun b => rfl, fun g => ⟨?_, ?_⟩⟩
  · rintro ⟨b, hb⟩
    cases g with
    | connError => exact absurd hb (by simp [download])
    | resp status body =>
      by_cases hs : status = 200
      · subst hs
        cases body with
        | readErr => exact absurd hb (by simp [download])
        | bytes d => exact ⟨d, rfl⟩
      · exact absurd hb (by simp [download, hs])
  · rintro ⟨b, rfl⟩
    exact ⟨b, rfl⟩

/-! ## Claim C8 — a cache hit fetches and saves nothing -/

/-- C8: confirmed.  For a newly claimed URL whose derived location is
present in the page store, `process` loads the stored content, performs no
network fetch and no save, and extracts from the stored content. -/
theorem c8_cache_hit_no_fetch_no_save (env : Env) (urls0 : List String) (input : String)
    (p : GoURL) (cached : String)
    (h1 : parseURLChars (trimSlashSuffix input.data) = some p)
    (h2 : String.mk p.rebuild ∉ urls0)
    (h3 : env.store (derivedLoc env.dir p) = some cached) :
    process env urls0 input =
      ⟨urls0 ++ [String.mk p.rebuild],
        ⟨[derivedLoc env.dir p], [], [], extractUrls (env.parseHTML cached) p⟩,
        .returned none⟩ := by
  unfold process
  rw [h1]
  simp [h2, h3]

/-- Witness for C8 at a concrete input: a populated store, no fetch, no
save. -/
theorem c8_cache_hit_no_fetch_no_save_w :
    process cacheEnv [] "https://github.com/features" =
      ⟨["https://github.com/features"],
        ⟨[derivedLoc cacheEnv.dir ghBase], [], [], []⟩, .returned none⟩ :=
  (c8_cache_hit_no_fetch_no_save cacheEnv [] "https://github.com/features" ghBase
    "cached" (by decide) (by decide) rfl).trans (by decide)

/-! ## Claim C9 — a malformed seed panics instead of returning an error -/

/-- C9: counterexample.  For the seed `http://a.com/` followed by a
newline — which passes main's `http`-prefix check but fails `url.Parse`
(control character) — `process` does not report an error to its caller:
it panics on the nil `*url.URL` at line 75, so no `Outcome.returned
(some e)` is produced. -/
theorem c9_counterexample :
    process wEnv [] "http://a.com/\n" = ⟨[], emptyEffects, Outcome.panicked⟩ ∧
      (process wEnv [] "http://a.com/\n").out ≠ Outcome.returned (some "parse error") :=
  ⟨by decide, by decide⟩

/-- C9 amended: on every input whose trimmed form fails to parse, the
parse error is printed and `process` then crashes with a nil-pointer
dereference before doing any work — the crawl is aborted abnormally, but
no error is returned to main, whose panic-on-error branch never runs. -/
theorem c9_malformed_seed_panics (env : Env) (urls0 : List String) (input : String)
    (h : parseURLChars (trimSlashSuffix input.data) = none) :
    process env urls0 input = ⟨urls0, emptyEffects, .panicked⟩ := by
  unfold process
  rw [h]

/-- Witness for the amended C9 at the concrete malformed seed
`"http://x.com/\n"`. -/
theorem c9_malformed_seed_panics_w :
    process wEnv [] "http://x.com/\n" = ⟨[], emptyEffects, .panicked⟩ :=
  c9_malformed_seed_panics wEnv [] "http://x.com/\n" (by decide)

/-! ## Claim C10 — process never returns a non-nil error, but can panic -/

/-- C10: counterexample.  `process` does not return a nil error on every
input: on the unparsable input `":"` it panics on the nil `*url.URL`
instead of returning at all. -/
theorem c10_counterexample :
    (process wEnv [] ":").out ≠ Outcome.returned none := by decide

/-- C10 amended: every call of `process` either panics on the parse-error
path or returns a nil error — download, save, HTML-parse and extraction
failures are printed and swallowed, so no call ever returns a non-nil
error and main's panic-on-error branch is unreachable. -/
theorem c10_error_result_always_nil (env : Env) (urls0 : List String) (input : String) :
    (process env urls0 input).out = Outcome.panicked ∨
      (process env urls0 input).out = Outcome.returned none := by
  unfold process
  cases hp : parseURLChars (trimSlashSuffix input.data) with
  | none => exact Or.inl rfl
  | some p =>
    by_cases hm : String.mk p.rebuild ∈ urls0
    · simp [hm]
    · cases hs : env.store (derivedLoc env.dir p) <;> simp [hm, hs]

/-! ## Claim C4 — the scope filter -/

/-- A list with no newline among its members is `newlineFree`. -/
theorem newlineFree_of_not_mem {l : List Char} (h : '\n' ∉ l) : newlineFree l = true := by
  rw [newlineFree, List.all_eq_true]
  intro x hx
  rw [bne_iff_ne]
  exact fun he => h (he ▸ hx)

/-- `slashTailMatch i t` holds exactly when `i` is `t` followed by `/` and
a remainder, provided `i` is newline-free. -/
theorem slashTailMatch_iff :
    ∀ (t i : List Char), '\n' ∉ i →
      (slashTailMatch i t = true ↔ ∃ r, i = t ++ '/' :: r)
  | [], [], _ => by simp [slashTailMatch]
  | [], c :: is, h => by
    simp only [slashTailMatch, Bool.and_eq_true, beq_iff_eq, List.nil_append]
    constructor
    · rintro ⟨rfl, _⟩
      exact ⟨is, rfl⟩
    · rintro ⟨r, hr⟩
      obtain ⟨rfl, rfl⟩ := List.cons.inj hr
      refine ⟨rfl, newlineFree_of_not_mem fun hx => h (List.mem_cons_of_mem _ hx)⟩
  | d :: ts, [], _ => by
    simp only [slashTailMatch]
    constructor
    · intro hf
      exact absurd hf (by simp)
    · rintro ⟨r, hr⟩
      exact absurd hr (by simp)
  | d :: ts, c :: is, h => by
    simp only [slashTailMatch, Bool.and_eq_true, beq_iff_eq, List.cons_append]
    rw [slashTailMatch_iff ts is fun hx => h (List.mem_cons_of_mem _ hx)]
    constructor
    · rintro ⟨rfl, r, rfl⟩
      exact ⟨r, rfl⟩
    · rintro ⟨r, hr⟩
      obtain ⟨rfl, rfl⟩ := List.cons.inj hr
      exact ⟨rfl, r, rfl⟩

/-- C4: counterexample.  The claimed iff fails on a candidate containing a
newline: `/features/\na` starts with `/features` followed by `/`, yet the
filter rejects it, because the regex's `.*` cannot cross a newline and `$`
anchors at the end of the text. -/
theorem c4_counterexample :
    checkIfChildren "/features/\na" "/features" = false ∧
      ("/features/\na").data = ("/features").data ++ '/' :: ('\n' :: 'a' :: []) :=
  ⟨by decide, by decide⟩

/-- C4 amended: for every candidate `c` free of newline characters,
`checkIfChildren c s` is true exactly when `c` equals `s` or `c` starts
with `s` followed by `/` (so in particular the three concrete examples of
the claim hold); a newline in the remainder after `s ++ "/"` makes the
filter reject. -/
theorem c4_scope_filter_iff (c s : String) (h : '\n' ∉ c.data) :
    checkIfChildren c s = true ↔ c = s ∨ ∃ r, c.data = s.data ++ '/' :: r := by
  unfold checkIfChildren checkIfChildrenChars
  rw [Bool.or_eq_true, beq_iff_eq, slashTailMatch_iff s.data c.data h]
  constructor
  · rintro (h1 | h2)
    · exact Or.inl (String.ext h1)
    · exact Or.inr h2
  · rintro (rfl | h2)
    · exact Or.inl rfl
    · exact Or.inr h2

/-- Witness for the amended C4: `/features/x` is in the scope
`/features`. -/
theorem c4_scope_filter_iff_w : checkIfChildren "/features/x" "/features" = true :=
  (c4_scope_filter_iff "/features/x" "/features" (by decide)).mpr
    (Or.inr ⟨['x'], by decide⟩)

/-! ## Claim C7 — normalization idempotence

Helper lemmas towards the round trip `parseURLChars p.rebuild = some p`
for `Reparsable p`. -/

/-- `cutFirst` leaves a list without the cut character untouched. -/
theorem cutFirst_of_not_mem (ch : Char) :
    ∀ (l : List Char), ch ∉ l → cutFirst ch l = (l, none)
  | [], _ => rfl
  | c :: cs, h => by
    have hc : ¬((c == ch) = true) := by
      rw [beq_iff_eq]
      exact fun he => h (he ▸ List.mem_cons_self c cs)
    simp only [cutFirst, if_neg hc,
      cutFirst_of_not_mem ch cs fun hx => h (List.mem_cons_of_mem _ hx)]

/-- Members of the before-part of a `cutFirst` are members of the input
and differ from the cut character. -/
theorem mem_cutFirst_fst (ch : Char) :
    ∀ (l : List Char), ∀ c ∈ (cutFirst ch l).1, c ∈ l ∧ c ≠ ch
  | [], c, hc => absurd hc (by simp [cutFirst])
  | a :: as, c, hc => by
    by_cases ha : (a == ch) = true
    · rw [show cutFirst ch (a :: as) = ([], some as) from by
        simp [cutFirst, ha]] at hc
      exact absurd hc (by simp)
    · simp only [cutFirst, if_neg ha] at hc
      rcases List.mem_cons.mp hc with rfl | hmem
      · exact ⟨List.mem_cons_self _ _, by rw [beq_iff_eq] at ha; exact ha⟩
      · obtain ⟨h1, h2⟩ := mem_cutFirst_fst ch as c hmem
        exact ⟨List.mem_cons_of_mem _ h1, h2⟩

/-- A scheme character is not a colon. -/
theorem ne_colon_of_schemeChar {c : Char} (h : isSchemeChar c = true) : c ≠ ':' := by
  intro he
  rw [he] at h
  exact absurd h (by decide)

/-- An alphabetic character is not a colon. -/
theorem ne_colon_of_alpha {c : Char} (h : isAlphaChar c = true) : c ≠ ':' := by
  intro he
  rw [he] at h
  exact absurd h (by decide)

/-- Soundness of `schemeScan`: a successful scan splits the input at a
colon reached through scheme characters. -/
theorem schemeScan_sound :
    ∀ (l a r : List Char), schemeScan l = some (a, r) →
      l = a ++ ':' :: r ∧ a.all isSchemeChar = true
  | [], a, r, h => by simp [schemeScan] at h
  | c :: cs, a, r, h => by
    by_cases hc : c = ':'
    · subst hc
      rw [show schemeScan (':' :: cs) = some ([], cs) from rfl] at h
      simp only [Option.some.injEq, Prod.mk.injEq] at h
      obtain ⟨h1, h2⟩ := h
      subst h1
      subst h2
      exact ⟨rfl, rfl⟩
    · have hcb : ¬((c == ':') = true) := by rw [beq_iff_eq]; exact hc
      by_cases hs : isSchemeChar c = true
      · simp only [schemeScan, if_neg hcb, if_pos hs] at h
        cases hm : schemeScan cs with
        | none => rw [hm] at h; exact absurd h (by simp)
        | some pair =>
          obtain ⟨ab, rb⟩ := pair
          rw [hm] at h
          obtain ⟨hl, ha⟩ := schemeScan_sound cs ab rb hm
          simp only [Option.some.injEq, Prod.mk.injEq] at h
          obtain ⟨h1, h2⟩ := h
          subst h1
          subst h2
          subst hl
          exact ⟨rfl, by simp [List.all_cons, hs, ha]⟩
      · rw [show schemeScan (c :: cs) = none from by
          simp only [schemeScan, if_neg hcb]; rw [if_neg hs]] at h
        exact absurd h (by simp)

/-- Completeness of `schemeScan`: a scheme-character list followed by a
colon scans back to itself. -/
theorem schemeScan_complete :
    ∀ (a r : List Char), a.all isSchemeChar = true →
      schemeScan (a ++ ':' :: r) = some (a, r)
  | [], r, _ => by simp [schemeScan]
  | c :: cs, r, h => by
    rw [List.all_cons, Bool.and_eq_true] at h
    have hcb : ¬((c == ':') = true) := by
      rw [beq_iff_eq]
      exact ne_colon_of_schemeChar h.1
    rw [List.cons_append]
    simp only [schemeScan, if_neg hcb, if_pos h.1]
    rw [schemeScan_complete cs r h.2]

/-- Soundness of `getScheme` in the `found` case. -/
theorem getScheme_found_sound (l sch r : List Char) (h : getScheme l = .found sch r) :
    schemeOK sch ∧ l = sch ++ ':' :: r := by
  cases l with
  | nil => exact absurd h (by simp [getScheme])
  | cons c cs =>
    by_cases hc : c = ':'
    · subst hc
      rw [show getScheme (':' :: cs) = .schemeErr from rfl] at h
      exact absurd h (by simp)
    · have hcb : ¬((c == ':') = true) := by rw [beq_iff_eq]; exact hc
      by_cases ha : isAlphaChar c = true
      · simp only [getScheme, if_neg hcb, if_pos ha] at h
        cases hm : schemeScan cs with
        | none => rw [hm] at h; exact absurd h (by simp)
        | some pair =>
          obtain ⟨ab, rb⟩ := pair
          rw [hm] at h
          obtain ⟨hl, hall⟩ := schemeScan_sound cs ab rb hm
          simp only [SchemeRes.found.injEq] at h
          obtain ⟨h1, h2⟩ := h
          subst h1
          subst h2
          subst hl
          exact ⟨⟨ha, hall⟩, rfl⟩
      · rw [show getScheme (c :: cs) = .noScheme from by
          simp only [getScheme, if_neg hcb]; rw [if_neg ha]] at h
        exact absurd h (by simp)

/-- Completeness of `getScheme`: a well-formed scheme followed by a colon
is found back. -/
theorem getScheme_complete (sch r : List Char) (h : schemeOK sch) :
    getScheme (sch ++ ':' :: r) = .found sch r := by
  cases sch with
  | nil => exact absurd h (by simp [schemeOK])
  | cons c cs =>
    obtain ⟨h1, h2⟩ := h
    have hcb : ¬((c == ':') = true) := by
      rw [beq_iff_eq]
      exact ne_colon_of_alpha h1
    rw [List.cons_append]
    simp only [getScheme, if_neg hcb, if_pos h1]
    rw [schemeScan_complete cs r h2]

/-- Unfolding of `percentUnescape` on a non-`%` head. -/
theorem percentUnescape_cons_ne (c : Char) (cs : List Char) (hc : ¬c = '%') :
    percentUnescape (c :: cs) = (percentUnescape cs).map fun d => c :: d := by
  rw [percentUnescape.eq_def]
  simp only []
  rw [if_neg hc]

/-- `percentUnescape` is the identity on percent-free input. -/
theorem percentUnescape_no_percent :
    ∀ (l : List Char), '%' ∉ l → percentUnescape l = some l
  | [], _ => rfl
  | c :: cs, h => by
    rw [percentUnescape_cons_ne c cs fun he => h (he ▸ List.mem_cons_self c cs),
      percentUnescape_no_percent cs fun hx => h (List.mem_cons_of_mem _ hx)]
    rfl

/-- `percentUnescape` keeps a leading slash. -/
theorem percentUnescape_head_slash {rest out : List Char}
    (h : percentUnescape ('/' :: rest) = some out) : headIsSlash out = true := by
  rw [percentUnescape_cons_ne '/' rest (by decide)] at h
  cases hm : percentUnescape rest with
  | none => rw [hm] at h; exact absurd h (by simp)
  | some d =>
    rw [hm] at h
    have h2 := Option.some.inj h
    rw [← h2]
    rfl

/-- A successful `Option.map` comes from a successful base value. -/
theorem option_map_eq_some {α β : Type} {f : α → β} {o : Option α} {b : β}
    (h : o.map f = some b) : ∃ a, o = some a ∧ b = f a := by
  cases o with
  | none => exact absurd h (by simp)
  | some a => exact ⟨a, rfl, (Option.some.inj h).symm⟩

/-- The scheme component of any `parsePathOrAuthority` output is the first
argument. -/
theorem parsePathOrAuthority_scheme (sch rest : List Char) (p : GoURL)
    (h : parsePathOrAuthority sch rest = some p) : p.scheme = sch := by
  unfold parsePathOrAuthority at h
  split at h
  · split at h
    · obtain ⟨pa, _, hb⟩ := option_map_eq_some h
      subst hb
      rfl
    · obtain ⟨pa, _, hb⟩ := option_map_eq_some h
      subst hb
      rfl
  · obtain ⟨pa, _, hb⟩ := option_map_eq_some h
    subst hb
    rfl

/-- The head of a cons list beginning with `/` per `headIsSlash`. -/
theorem eq_slash_of_headIsSlash {c : Char} {cs : List Char}
    (h : headIsSlash (c :: cs) = true) : c = '/' := by
  rw [show headIsSlash (c :: cs) = (c == '/') from rfl, beq_iff_eq] at h
  exact h

/-- `dropWhile (· != '/')` produces the empty list or a list beginning
with `/`. -/
theorem dropWhile_slash_shape :
    ∀ (l : List Char),
      l.dropWhile (· != '/') = [] ∨ headIsSlash (l.dropWhile (· != '/')) = true
  | [] => Or.inl rfl
  | a :: as => by
    by_cases hp : (a != '/') = true
    · rw [List.dropWhile_cons, if_pos hp]
      exact dropWhile_slash_shape as
    · rw [List.dropWhile_cons, if_neg hp]
      right
      have ha : a = '/' := by
        rw [bne_iff_ne] at hp
        exact not_not.mp hp
      rw [show headIsSlash (a :: as) = (a == '/') from rfl, beq_iff_eq]
      exact ha

/-- Splitting `host ++ path` at the first `/` recovers `host` and `path`
when `host` is slash-free and `path` is empty or starts with `/`. -/
theorem takeWhile_dropWhile_append (host path : List Char)
    (hh : ∀ c ∈ host, c ≠ '/') (hp : path = [] ∨ headIsSlash path = true) :
    (host ++ path).takeWhile (· != '/') = host ∧
      (host ++ path).dropWhile (· != '/') = path := by
  induction host with
  | nil =>
    simp only [List.nil_append]
    rcases hp with rfl | hp
    · exact ⟨rfl, rfl⟩
    · cases path with
      | nil => exact ⟨rfl, rfl⟩
      | cons c cs =>
        have hc : c = '/' := eq_slash_of_headIsSlash hp
        subst hc
        rw [List.takeWhile_cons, List.dropWhile_cons]
        exact ⟨by rw [if_neg (by decide)], by rw [if_neg (by decide)]⟩
  | cons a as ih =>
    have ha : (a != '/') = true := by
      rw [bne_iff_ne]
      exact hh a (List.mem_cons_self _ _)
    obtain ⟨ih1, ih2⟩ := ih fun c hc => hh c (List.mem_cons_of_mem _ hc)
    rw [List.cons_append, List.takeWhile_cons, List.dropWhile_cons, if_pos ha, if_pos ha,
      ih1, ih2]
    exact ⟨rfl, rfl⟩

/-- The path of any `parsePathOrAuthority` output on a slash-headed rest
is empty or slash-headed (the decode keeps a leading slash). -/
theorem parsePathOrAuthority_path_shape (sch rest : List Char) (p : GoURL)
    (hr : headIsSlash rest = true) (h : parsePathOrAuthority sch rest = some p) :
    p.path = [] ∨ headIsSlash p.path = true := by
  unfold parsePathOrAuthority at h
  split at h
  next tail =>
    split at h
    next =>
      obtain ⟨pa, hpa, hb⟩ := option_map_eq_some h
      subst hb
      rcases dropWhile_slash_shape tail with hnil | hslash
      · left
        show pa = []
        rw [hnil] at hpa
        exact (Option.some.inj hpa).symm
      · right
        show headIsSlash pa = true
        cases hd : tail.dropWhile (· != '/') with
        | nil =>
          rw [hd] at hslash
          exact absurd hslash (by decide)
        | cons c cs =>
          rw [hd] at hslash hpa
          have hc := eq_slash_of_headIsSlash hslash
          subst hc
          exact percentUnescape_head_slash hpa
    next =>
      obtain ⟨pa, hpa, hb⟩ := option_map_eq_some h
      subst hb
      right
      show headIsSlash pa = true
      exact percentUnescape_head_slash hpa
  next =>
    obtain ⟨pa, hpa, hb⟩ := option_map_eq_some h
    subst hb
    right
    show headIsSlash pa = true
    cases rest with
    | nil => exact absurd hr (by decide)
    | cons c cs =>
      have hc := eq_slash_of_headIsSlash hr
      subst hc
      exact percentUnescape_head_slash hpa

/-- Forward facts about the scheme of a successful parse: it is
well-formed and, coming from before the fragment cut and after the
control-character check, free of `#` and of control characters. -/
theorem parse_scheme_facts (s : List Char) (p : GoURL)
    (h : parseURLChars s = some p) (hs : p.scheme ≠ []) :
    schemeOK p.scheme ∧ ∀ c ∈ p.scheme, c ≠ '#' ∧ isCTL c = false := by
  simp only [parseURLChars] at h
  cases hf : fragmentOK (cutFirst '#' s).2 with
  | false => rw [hf] at h; simp at h
  | true =>
    rw [hf, Bool.not_true, if_neg Bool.false_ne_true] at h
    cases hctl : (cutFirst '#' s).1.any isCTL with
    | true => rw [hctl, if_pos rfl] at h; simp at h
    | false =>
      rw [hctl, if_neg Bool.false_ne_true] at h
      have hclean : ∀ c ∈ (cutFirst '#' s).1, c ≠ '#' ∧ isCTL c = false := by
        intro c hcb
        obtain ⟨_, h2⟩ := mem_cutFirst_fst '#' s c hcb
        refine ⟨h2, ?_⟩
        rw [Bool.eq_false_iff]
        intro hcc
        rw [show ((cutFirst '#' s).1.any isCTL) = true from
          List.any_eq_true.mpr ⟨c, hcb, hcc⟩] at hctl
        exact absurd hctl (by decide)
      cases hg : getScheme (cutFirst '#' s).1 with
      | schemeErr => rw [hg] at h; simp at h
      | noScheme =>
        rw [hg] at h
        simp only [] at h
        exfalso
        apply hs
        by_cases h1 : headIsSlash (cutFirst '?' (cutFirst '#' s).1).1 = true
        · rw [if_pos h1] at h
          exact parsePathOrAuthority_scheme _ _ p h
        · rw [if_neg h1] at h
          by_cases h2 :
              (((cutFirst '?' (cutFirst '#' s).1).1.takeWhile (· != '/')).contains ':') = true
          · rw [if_pos h2] at h
            simp at h
          · rw [if_neg h2] at h
            exact parsePathOrAuthority_scheme _ _ p h
      | found sch rest0 =>
        rw [hg] at h
        simp only [] at h
        obtain ⟨hsch, hbfeq⟩ := getScheme_found_sound _ sch rest0 hg
        have hschmem : ∀ c ∈ sch, c ≠ '#' ∧ isCTL c = false := fun c hc =>
          hclean c (by rw [hbfeq]; exact List.mem_append_left _ hc)
        have hpsch : p.scheme = sch := by
          by_cases h1 : headIsSlash (cutFirst '?' rest0).1 = true
          · rw [if_pos h1] at h
            exact parsePathOrAuthority_scheme _ _ p h
          · rw [if_neg h1] at h
            rw [← Option.some.inj h]
        rw [hpsch]
        exact ⟨hsch, hschmem⟩

/-- Forward fact about the path of a successful parse with a scheme: the
path is empty (opaque URL) or begins with `/`. -/
theorem parse_path_shape (s : List Char) (p : GoURL)
    (h : parseURLChars s = some p) (hs : p.scheme ≠ []) :
    p.path = [] ∨ headIsSlash p.path = true := by
  simp only [parseURLChars] at h
  cases hf : fragmentOK (cutFirst '#' s).2 with
  | false => rw [hf] at h; simp at h
  | true =>
    rw [hf, Bool.not_true, if_neg Bool.false_ne_true] at h
    cases hctl : (cutFirst '#' s).1.any isCTL with
    | true => rw [hctl, if_pos rfl] at h; simp at h
    | false =>
      rw [hctl, if_neg Bool.false_ne_true] at h
      cases hg : getScheme (cutFirst '#' s).1 with
      | schemeErr => rw [hg] at h; simp at h
      | noScheme =>
        rw [hg] at h
        simp only [] at h
        exfalso
        apply hs
        by_cases h1 : headIsSlash (cutFirst '?' (cutFirst '#' s).1).1 = true
        · rw [if_pos h1] at h
          exact parsePathOrAuthority_scheme _ _ p h
        · rw [if_neg h1] at h
          by_cases h2 :
              (((cutFirst '?' (cutFirst '#' s).1).1.takeWhile (· != '/')).contains ':') = true
          · rw [if_pos h2] at h
            simp at h
          · rw [if_neg h2] at h
            exact parsePathOrAuthority_scheme _ _ p h
      | found sch rest0 =>
        rw [hg] at h
        simp only [] at h
        by_cases h1 : headIsSlash (cutFirst '?' rest0).1 = true
        · rw [if_pos h1] at h
          exact parsePathOrAuthority_path_shape _ _ p h1 h
        · rw [if_neg h1] at h
          rw [← Option.some.inj h]
          exact Or.inl rfl

/-- A well-formed scheme is nonempty. -/
theorem schemeOK_ne_nil {l : List Char} (h : schemeOK l) : l ≠ [] := by
  cases l with
  | nil => exact absurd h (by simp [schemeOK])
  | cons c cs => simp

/-- Membership in a rebuilt URL comes from the scheme, the separator
characters, the host or the path. -/
theorem mem_rebuild_cases (p : GoURL) (c : Char) (h : c ∈ p.rebuild) :
    c ∈ p.scheme ∨ c = ':' ∨ c = '/' ∨ c ∈ p.host ∨ c ∈ p.path := by
  unfold GoURL.rebuild at h
  rcases List.mem_append.mp h with h1 | h1
  · exact Or.inl h1
  · rcases List.mem_cons.mp h1 with rfl | h2
    · exact Or.inr (Or.inl rfl)
    · rcases List.mem_cons.mp h2 with rfl | h3
      · exact Or.inr (Or.inr (Or.inl rfl))
      · rcases List.mem_cons.mp h3 with rfl | h4
        · exact Or.inr (Or.inr (Or.inl rfl))
        · rcases List.mem_append.mp h4 with h5 | h5
          · exact Or.inr (Or.inr (Or.inr (Or.inl h5)))
          · exact Or.inr (Or.inr (Or.inr (Or.inr h5)))

/-- No `#` occurs in the rebuild of a reparsable URL. -/
theorem rebuild_no_hash (p : GoURL) (hp : Reparsable p) : '#' ∉ p.rebuild := by
  intro hmem
  rcases mem_rebuild_cases p '#' hmem with h | h | h | h | h
  · exact (hp.scheme_clean _ h).1 rfl
  · exact absurd h (by decide)
  · exact absurd h (by decide)
  · exact (hp.host_clean _ h).2.2.1 rfl
  · exact (hp.path_clean _ h).2.1 rfl

/-- No control character occurs in the rebuild of a reparsable URL. -/
theorem rebuild_no_ctl (p : GoURL) (hp : Reparsable p) : p.rebuild.any isCTL = false := by
  rw [Bool.eq_false_iff]
  intro hany
  rw [List.any_eq_true] at hany
  obtain ⟨c, hc, hctl⟩ := hany
  rcases mem_rebuild_cases p c hc with h | h | h | h | h
  · rw [(hp.scheme_clean _ h).2] at hctl
    exact absurd hctl (by simp)
  · subst h
    exact absurd hctl (by decide)
  · subst h
    exact absurd hctl (by decide)
  · rw [(hp.host_clean _ h).2.2.2.2.2] at hctl
    exact absurd hctl (by simp)
  · rw [(hp.path_clean _ h).2.2.2] at hctl
    exact absurd hctl (by simp)

/-- No `?` occurs after the scheme separator of a reparsable URL. -/
theorem rebuild_tail_no_qmark (p : GoURL) (hp : Reparsable p) :
    '?' ∉ ('/' :: '/' :: (p.host ++ p.path)) := by
  intro h
  rcases List.mem_cons.mp h with h1 | h1
  · exact absurd h1 (by decide)
  · rcases List.mem_cons.mp h1 with h2 | h2
    · exact absurd h2 (by decide)
    · rcases List.mem_append.mp h2 with h3 | h3
      · exact (hp.host_clean _ h3).2.1 rfl
      · exact (hp.path_clean _ h3).1 rfl

/-- `takeWhile` keeps a list all of whose members satisfy the
predicate. -/
theorem takeWhile_eq_self_of_all {p : Char → Bool} :
    ∀ (l : List Char), (∀ c ∈ l, p c = true) → l.takeWhile p = l
  | [], _ => rfl
  | c :: cs, h => by
    rw [List.takeWhile_cons, if_pos (h c (List.mem_cons_self _ _)),
      takeWhile_eq_self_of_all cs fun x hx => h x (List.mem_cons_of_mem _ hx)]

/-- The userinfo strip is the identity on an `@`-free authority. -/
theorem afterLastAt_no_at (l : List Char) (h : '@' ∉ l) : afterLastAt l = l := by
  have ht : l.reverse.takeWhile (· != '@') = l.reverse := by
    refine takeWhile_eq_self_of_all _ fun c hc => ?_
    rw [bne_iff_ne]
    exact fun he => h (he ▸ List.mem_reverse.mp hc)
  unfold afterLastAt
  rw [ht, List.reverse_reverse]

/-- The round trip: parsing the rebuilt `scheme://host/path` of a
reparsable URL recovers the same triple. -/
theorem reparse_rebuild (p : GoURL) (hp : Reparsable p) :
    parseURLChars p.rebuild = some p := by
  have e1 : cutFirst '#' p.rebuild = (p.rebuild, none) :=
    cutFirst_of_not_mem _ _ (rebuild_no_hash p hp)
  have e2 : p.rebuild.any isCTL = false := rebuild_no_ctl p hp
  have e3 : getScheme p.rebuild = .found p.scheme ('/' :: '/' :: (p.host ++ p.path)) := by
    rw [show p.rebuild = p.scheme ++ ':' :: ('/' :: '/' :: (p.host ++ p.path)) from rfl]
    exact getScheme_complete _ _ hp.scheme_shape
  have e4 : (cutFirst '?' ('/' :: '/' :: (p.host ++ p.path))).1 =
      '/' :: '/' :: (p.host ++ p.path) := by
    rw [cutFirst_of_not_mem _ _ (rebuild_tail_no_qmark p hp)]
  have e5 : parsePathOrAuthority p.scheme ('/' :: '/' :: (p.host ++ p.path)) = some p := by
    have e5a : parsePathOrAuthority p.scheme ('/' :: '/' :: (p.host ++ p.path)) =
        if p.scheme ≠ [] || !headIsSlash (p.host ++ p.path) then
          (percentUnescape ((p.host ++ p.path).dropWhile (· != '/'))).map fun pa =>
            (⟨p.scheme, afterLastAt ((p.host ++ p.path).takeWhile (· != '/')), pa⟩ : GoURL)
        else (percentUnescape ('/' :: '/' :: (p.host ++ p.path))).map fun pa =>
          (⟨p.scheme, [], pa⟩ : GoURL) := rfl
    have hcond : (decide (p.scheme ≠ []) || !headIsSlash (p.host ++ p.path)) = true := by
      rw [Bool.or_eq_true]
      left
      rw [decide_eq_true_eq]
      exact schemeOK_ne_nil hp.scheme_shape
    rw [e5a, if_pos hcond]
    obtain ⟨ht, hd⟩ := takeWhile_dropWhile_append p.host p.path
      (fun c hc => (hp.host_clean c hc).1) hp.path_shape
    rw [ht, hd, afterLastAt_no_at p.host fun hm => (hp.host_clean _ hm).2.2.2.2.1 rfl,
      percentUnescape_no_percent p.path fun hm => (hp.path_clean _ hm).2.2.1 rfl]
    rfl
  simp only [parseURLChars, e1, e2, e3, e4, fragmentOK, Bool.not_true]
  simp [headIsSlash, e5]

/-- The percent-decoding divergence between the two normalization passes
(as in Go): the first pass decodes `%3F` into the path, the second pass
then cuts the decoded `?` as a query. -/
theorem normalize_decodes_percent_escapes :
    normalize "https://x.com/a%3Fb" = some "https://x.com/a?b" ∧
      (normalize "https://x.com/a%3Fb").bind normalize = some "https://x.com/a" :=
  ⟨by decide, by decide⟩

/-- C7: counterexample.  Normalization is not idempotent on every URL:
`strings.TrimSuffix` removes only one trailing `/`, so
`normalize "https://x.com//" = "https://x.com/"` while a second pass
gives `"https://x.com"`. -/
theorem c7_counterexample :
    (normalize "https://x.com//").bind normalize ≠ normalize "https://x.com//" := by decide

/-- C7 amended: normalization is idempotent on every URL that parses to a
nonempty scheme, a host free of `/`, `?`, `#`, `%`, `@` and control
characters, a (percent-decoded) path free of `?`, `#`, `%` and control
characters, and a normalized `scheme://host/path` form that does not end
in `/`.  Outside these conditions idempotence genuinely fails: a trailing
`//` survives one `TrimSuffix` pass (the counterexample), and escapes
decoded into the path by the first pass are re-interpreted by the second
(`%3F` becomes a query cut, `%23` a fragment cut, `%25` an invalid
escape, `%2F` a trimmable slash — see
`normalize_decodes_percent_escapes`); an empty scheme makes the second
parse fail. -/
theorem c7_normalize_idempotent (u : String) (p : GoURL)
    (h1 : parseURLChars (trimSlashSuffix u.data) = some p)
    (h2 : p.scheme ≠ [])
    (hh : ∀ c ∈ p.host, c ≠ '/' ∧ c ≠ '?' ∧ c ≠ '#' ∧ c ≠ '%' ∧ c ≠ '@' ∧ isCTL c = false)
    (hpp : ∀ c ∈ p.path, c ≠ '?' ∧ c ≠ '#' ∧ c ≠ '%' ∧ isCTL c = false)
    (h3 : p.rebuild.getLast? ≠ some '/') :
    (normalize u).bind normalize = normalize u := by
  obtain ⟨hsch, hschc⟩ := parse_scheme_facts _ p h1 h2
  have hshape := parse_path_shape _ p h1 h2
  have hrep : Reparsable p := ⟨hsch, hschc, hh, hpp, hshape⟩
  have hn : normalize u = some (String.mk p.rebuild) := by
    simp [normalize, normalizeChars, h1]
  rw [hn]
  show normalize (String.mk p.rebuild) = some (String.mk p.rebuild)
  have htrim : trimSlashSuffix p.rebuild = p.rebuild := by
    unfold trimSlashSuffix
    rw [if_neg fun hcc => h3 (by rwa [beq_iff_eq] at hcc)]
  simp [normalize, normalizeChars, htrim, reparse_rebuild p hrep]

/-- Witness for the amended C7 at the concrete URL
`https://github.com/features`. -/
theorem c7_normalize_idempotent_w :
    (normalize "https://github.com/features").bind normalize =
      normalize "https://github.com/features" :=
  c7_normalize_idempotent "https://github.com/features" ghBase
    (by decide) (by decide) (by decide) (by decide) (by decide)

end Crawler
